import Mathlib

/- Shallow embedding of the dependency graph engine in
   src/backend/dependency_map.rs.

   A `DependencyMap`'s `HashMap<String, Vec<String>>` is modelled as an
   association list with unique keys (`Store`); the map's unspecified
   iteration order is modelled as the list order.  `HashSet<String>`
   values are modelled as lists built only through `hinsert` (insert if
   absent), with `List.erase` for `HashSet::remove`; this matches hash-set
   semantics exactly on the duplicate-free lists the code constructs.
   Recursive DFS helpers take an explicit fuel argument so that they are
   structurally recursive; the entry points pass `fuelBound`, which is
   strictly larger than the deepest possible call chain (every productive
   nested call inserts a previously unseen asset into a visited set whose
   elements all occur in the store), so the fuel-exhaustion branch is
   unreachable from the entry points. -/

abbrev Store := List (String × List String)

/-- The keys of the map, in iteration order. -/
def keysOf (store : Store) : List String := store.map Prod.fst

/-- `self.dependencies.get(asset)` -/
def lookupDeps (store : Store) (a : String) : Option (List String) :=
  (store.find? (fun e => e.1 == a)).map Prod.snd

/-- The dependency list of `a`, or `[]` when `a` is not a key.  Iterating
over this list is the same as iterating over `get(asset)`'s list when the
key is present and doing nothing when it is absent. -/
def depsOf (store : Store) (a : String) : List String :=
  (lookupDeps store a).getD []

/-- `HashSet::insert` on a duplicate-free list representation. -/
def hinsert (x : String) (s : List String) : List String :=
  if x ∈ s then s else x :: s

/-- `add_dependency`: `entry(asset).or_insert_with(Vec::new).push(dependency)`. -/
def add_dependency (store : Store) (asset dep : String) : Store :=
  if asset ∈ keysOf store then
    store.map (fun e => if e.1 = asset then (e.1, e.2 ++ [dep]) else e)
  else
    store ++ [(asset, [dep])]

/-- `remove_dependency`: retain all elements different from `dep` in
`asset`'s list and drop the key when the list becomes empty. -/
def remove_dependency (store : Store) (asset dep : String) : Store :=
  match lookupDeps store asset with
  | none => store
  | some l =>
      if (l.filter (fun d => d ≠ dep)).isEmpty then store.filter (fun e => e.1 ≠ asset)
      else store.map (fun e => if e.1 = asset then (e.1, l.filter (fun d => d ≠ dep)) else e)

/-- `get_dependencies`: a copy of the direct list, or empty when absent. -/
def get_dependencies (store : Store) (asset : String) : List String :=
  depsOf store asset

/-- `get_reverse_dependencies`: every key whose list contains `asset`. -/
def get_reverse_dependencies (store : Store) (asset : String) : List String :=
  (store.filter (fun e => asset ∈ e.2)).map Prod.fst

/-- The loop body of `collect_dependencies_recursive`: for each `dep`,
push it onto `result` when it is not already there, then recurse.  The
state is `(visited, result)`. -/
def goCollect (f : String → List String × List String → List String × List String) :
    List String → List String × List String → List String × List String
  | [], st => st
  | d :: rest, st =>
      let res2 := if d ∈ st.2 then st.2 else st.2 ++ [d]
      goCollect f rest (f d (st.1, res2))

/-- `collect_dependencies_recursive` (its `Result<()>` is always `Ok(())`:
no failing operation occurs in its body, so it is modelled as a pure state
transformer). -/
def collectRec (store : Store) : Nat → String → List String × List String →
    List String × List String
  | 0, _, st => st
  | n + 1, asset, st =>
      if asset ∈ st.1 then st
      else goCollect (collectRec store n) (depsOf store asset) (hinsert asset st.1, st.2)

/-- Fuel strictly exceeding the longest possible DFS call chain: every
productive frame inserts a distinct asset name occurring in the store. -/
def fuelBound (store : Store) : Nat :=
  store.length + (store.map (fun e => e.2.length)).sum + 2

/-- `get_all_dependencies`: the recursion starts from empty visited set and
empty result, and the returned `Result` is always `Ok`. -/
def get_all_dependencies (store : Store) (asset : String) :
    Except String (List String) :=
  .ok (collectRec store (fuelBound store) asset ([], [])).2

/-- `DependencyTree` from the source. -/
inductive DependencyTree : Type where
  | node (asset : String) (depth : Nat) (dependencies : List DependencyTree)
      (is_circular : Bool) : DependencyTree

/-- The `map`/`collect` over the children, threading the mutable visited
set through the recursive calls in iteration order. -/
def goBuild (f : String → List String → DependencyTree × List String) :
    List String → List String → List DependencyTree × List String
  | [], vis => ([], vis)
  | d :: rest, vis =>
      let p := f d vis
      let q := goBuild f rest p.2
      (p.1 :: q.1, q.2)

/-- `build_tree_recursive`.  The fuel decreases by one per recursion level;
since the code recurses only while `depth < max_depth`, fuel
`max_depth - depth` always suffices, and the fuel-zero branch coincides
with the early-return branch that is taken when `depth >= max_depth`. -/
def build_tree_recursive (store : Store) :
    Nat → String → Nat → Nat → List String → DependencyTree × List String
  | 0, asset, depth, _, visited =>
      (.node asset depth [] (decide (asset ∈ visited)), visited)
  | n + 1, asset, depth, max_depth, visited =>
      if asset ∈ visited ∨ max_depth ≤ depth then
        (.node asset depth [] (decide (asset ∈ visited)), visited)
      else
        let vis1 := hinsert asset visited
        let p := goBuild (fun d v => build_tree_recursive store n d (depth + 1) max_depth v)
          (depsOf store asset) vis1
        (.node asset depth p.1 false, p.2.erase asset)

/-- `build_dependency_tree`: starts at depth 0 with an empty visited set. -/
def build_dependency_tree (store : Store) (asset : String) (max_depth : Nat) :
    DependencyTree :=
  (build_tree_recursive store max_depth asset 0 max_depth []).1

/-- State of `detect_circular_dependencies`'s DFS. -/
structure DfsState where
  visited : List String
  stack : List String
  path : List String
  cycles : List (List String)
  panicked : Bool

/-- The back-edge branch: `position(|a| a == dep).unwrap()` followed by
`path[cycle_start..].to_vec()`.  A failing `unwrap` (the index not found)
is modelled by setting `panicked`. -/
def emitCycle (d : String) (st : DfsState) : DfsState :=
  match st.path.findIdx? (fun x => x == d) with
  | some i => { st with cycles := st.cycles ++ [st.path.drop i] }
  | none => { st with panicked := true }

/-- The loop over `deps` inside `detect_cycles_dfs`. -/
def goDetect (f : String → DfsState → DfsState) :
    List String → DfsState → DfsState
  | [], st => st
  | d :: rest, st =>
      goDetect f rest
        (if d ∈ st.visited then (if d ∈ st.stack then emitCycle d st else st)
         else f d st)

/-- `detect_cycles_dfs`: mark the asset visited and gray, push it on the
path, walk its dependency list, then pop the path and ungray the asset. -/
def detectDfs (store : Store) : Nat → String → DfsState → DfsState
  | 0, _, st => st
  | n + 1, asset, st =>
      let st1 : DfsState :=
        { st with visited := hinsert asset st.visited,
                  stack := hinsert asset st.stack,
                  path := st.path ++ [asset] }
      let st2 := goDetect (detectDfs store n) (depsOf store asset) st1
      { st2 with path := st2.path.dropLast, stack := st2.stack.erase asset }

/-- The driver loop of `detect_circular_dependencies`: visit every key not
yet visited, with a fresh path vector per root. -/
def detectState (store : Store) : DfsState :=
  (keysOf store).foldl
    (fun st a =>
      if a ∈ st.visited then st
      else detectDfs store (fuelBound store) a { st with path := [] })
    ⟨[], [], [], [], false⟩

/-- `detect_circular_dependencies`. -/
def detect_circular_dependencies (store : Store) : List (List String) :=
  (detectState store).cycles

/-- The `map`/`max` over children inside `calculate_depth_recursive`,
threading the mutable visited set; `max().unwrap_or(0)` over naturals is
the fold of `max` with base 0. -/
def goDepth (f : String → List String → Nat × List String) :
    List String → List String → Nat × List String
  | [], vis => (0, vis)
  | d :: rest, vis =>
      let p := f d vis
      let q := goDepth f rest p.2
      (max p.1 q.1, q.2)

/-- `calculate_depth_recursive`: a revisited asset contributes 0; otherwise
insert, take 1 + max over children, and remove the asset again. -/
def calcDepthRec (store : Store) : Nat → String → List String → Nat × List String
  | 0, _, vis => (0, vis)
  | n + 1, asset, vis =>
      if asset ∈ vis then (0, vis)
      else
        let p := goDepth (calcDepthRec store n) (depsOf store asset) (hinsert asset vis)
        (p.1 + 1, p.2.erase asset)

/-- `calculate_max_depth`: starts from an empty visited set. -/
def calculate_max_depth (store : Store) (asset : String) : Nat :=
  (calcDepthRec store (fuelBound store) asset []).1

/-- `Vec::dedup`: removes consecutive duplicates. -/
def dedupConsec : List String → List String
  | [] => []
  | [a] => [a]
  | a :: b :: rest =>
      if a = b then dedupConsec (b :: rest) else a :: dedupConsec (b :: rest)

/-- Lexicographic comparison of character lists: the model of Rust's `Ord`
on `String` (for valid UTF-8, byte order and codepoint order agree). -/
def charsLe : List Char → List Char → Bool
  | [], _ => true
  | _ :: _, [] => false
  | a :: as, b :: bs => if a < b then true else if b < a then false else charsLe as bs

/-- `a <= b` in Rust's string order. -/
def strLeb (a b : String) : Bool := charsLe a.data b.data

/-- `deps.sort(); deps.dedup();` for one entry.  `Vec::sort` by `Ord` on
`String` produces the unique sorted permutation, which insertion sort
with the same total order also produces. -/
def optimizeEntry (l : List String) : List String :=
  dedupConsec (List.insertionSort (fun a b => strLeb a b = true) l)

/-- `optimize`: sort-and-dedup every list, counting removed entries, then
drop every key whose list is empty.  Returns the new store and the count. -/
def optimize (store : Store) : Store × Nat :=
  ((store.map (fun e => (e.1, optimizeEntry e.2))).filter (fun e => ¬ e.2.isEmpty),
   (store.map (fun e => e.2.length - (optimizeEntry e.2).length)).sum)

/-- Plain JSON rendering of the map.  This abstracts
`serde_json::to_string_pretty`, which never fails for
`HashMap<String, Vec<String>>` (so the `?` in the source cannot yield
`Err`); only the success of the call matters to the claims. -/
def jsonOfStore (store : Store) : String :=
  "\x7b \"dependencies\": \x7b "
    ++ String.intercalate (", ")
        (store.map (fun e =>
          "\"" ++ e.1 ++ "\": [" ++
            String.intercalate (", ") (e.2.map (fun s => "\"" ++ s ++ "\"")) ++ "]"))
    ++ " \x7d \x7d"

/-- The node set of the DOT export: union of all keys and all list values
(`HashSet` iteration abstracted as first-occurrence order). -/
def dotNodes (store : Store) : List String :=
  (keysOf store ++ (store.map Prod.snd).flatten).dedup

/-- `export_to_dot`. -/
def export_to_dot (store : Store) : String :=
  "digraph AssetDependencies \x7b\n"
    ++ "    rankdir=LR;\n"
    ++ "    node [shape=box, style=rounded];\n\n"
    ++ String.join ((dotNodes store).map (fun a => "    \"" ++ a ++ "\";\n"))
    ++ "\n"
    ++ String.join (store.map (fun e =>
        String.join (e.2.map (fun d =>
          "    \"" ++ e.1 ++ "\" -> \"" ++ d ++ "\";\n"))))
    ++ "\x7d\n"

/-- `export_to_csv`. -/
def export_to_csv (store : Store) : String :=
  "Asset,Dependency\n"
    ++ String.join (store.map (fun e =>
        String.join (e.2.map (fun d => e.1 ++ "," ++ d ++ "\n"))))

/-- `format.to_lowercase()`, modelled characterwise (the format names the
dispatch compares against are ASCII, where Rust's `to_lowercase` agrees
with per-character lowercasing). -/
def lowerStr (s : String) : String := ⟨s.data.map Char.toLower⟩

/-- `export_to_format`: case-insensitive dispatch; `yaml` returns the
placeholder string; anything else is the `Unsupported export format`
error. -/
def export_to_format (store : Store) (format : String) : Except String String :=
  match lowerStr format with
  | "json" => .ok (jsonOfStore store)
  | "dot" => .ok (export_to_dot store)
  | "csv" => .ok (export_to_csv store)
  | "yaml" => .ok ("YAML export not implemented yet")
  | _ => .error ("Unsupported export format: " ++ format)

/-- The edge relation of the store. -/
def hasEdge (store : Store) (a b : String) : Prop := b ∈ depsOf store a

instance (store : Store) (a b : String) : Decidable (hasEdge store a b) :=
  inferInstanceAs (Decidable (b ∈ depsOf store a))

/-- A reported cycle in consecutive-edge order: nonempty, every
consecutive pair is an edge, and the last element has an edge back to the
first. -/
def GoodCycle (store : Store) (c : List String) : Prop :=
  c ≠ [] ∧ c.Chain' (hasEdge store) ∧
    hasEdge store (c.getLastD ("")) (c.headD (""))

/-- Executable check that consecutive elements are edges. -/
def chainEdgeB (store : Store) : List String → Bool
  | [] => true
  | [_] => true
  | a :: b :: rest => decide (hasEdge store a b) && chainEdgeB store (b :: rest)

theorem chain'_iff_chainEdgeB (store : Store) :
    ∀ c : List String, c.Chain' (hasEdge store) ↔ chainEdgeB store c = true := by
  intro c
  induction c with
  | nil => simp [chainEdgeB]
  | cons a tail ih =>
      cases tail with
      | nil => simp [chainEdgeB]
      | cons b rest =>
          rw [List.chain'_cons, chainEdgeB]
          rw [Bool.and_eq_true, decide_eq_true_iff]
          exact and_congr Iff.rfl ih

instance (store : Store) (c : List String) : Decidable (GoodCycle store c) :=
  decidable_of_iff
    (c ≠ [] ∧ chainEdgeB store c = true ∧
      hasEdge store (c.getLastD ("")) (c.headD ("")))
    (by
      constructor
      · rintro ⟨h1, h2, h3⟩
        exact ⟨h1, (chain'_iff_chainEdgeB store c).mpr h2, h3⟩
      · rintro ⟨h1, h2, h3⟩
        exact ⟨h1, (chain'_iff_chainEdgeB store c).mp h2, h3⟩)

/-- The invariant of the cycle-detection DFS state: the path is a chain of
edges, the gray set is exactly the set of path elements, gray nodes are
visited, every reported cycle is good, and no `unwrap` has failed. -/
def DetectInv (store : Store) (st : DfsState) : Prop :=
  st.path.Chain' (hasEdge store)
  ∧ (∀ x, x ∈ st.stack ↔ x ∈ st.path)
  ∧ (∀ x, x ∈ st.stack → x ∈ st.visited)
  ∧ (∀ c, c ∈ st.cycles → GoodCycle store c)
  ∧ st.panicked = false

/-- Concrete asset names used by the spec's test stores. -/
def nA : String := "A"

def nB : String := "B"

def nC : String := "C"

def nD : String := "D"

def nX : String := "X"

/-- The spec's cycle store `{A:[B], B:[C], C:[A]}`. -/
def cycStore : Store := [(nA, [nB]), (nB, [nC]), (nC, [nA])]

/-- The spec's diamond store `{A:[B,C], B:[D], C:[D]}`. -/
def diamondStore : Store := [(nA, [nB, nC]), (nB, [nD]), (nC, [nD])]

/- ===== helper lemmas on the association-list store ===== -/

theorem find?_eq_none_of_not_mem_keys {store : Store} {a : String}
    (h : a ∉ keysOf store) : store.find? (fun e => e.1 == a) = none := by
  rw [List.find?_eq_none]
  intro e he
  simp only [beq_iff_eq]
  intro hea
  exact h (by simpa [keysOf, hea] using List.mem_map_of_mem Prod.fst he)

theorem find?_map_append (store : Store) (a b : String) :
    (store.map (fun e => if e.1 = a then (e.1, e.2 ++ [b]) else e)).find? (fun e => e.1 == a)
      = (store.find? (fun e => e.1 == a)).map (fun e => (e.1, e.2 ++ [b])) := by
  induction store with
  | nil => rfl
  | cons e rest ih =>
      by_cases hea : e.1 = a
      · simp [List.find?_cons, hea, ih]
      · simp [List.find?_cons, hea, ih]

theorem find?_map_const (store : Store) (a : String) (c : List String) :
    (store.map (fun e => if e.1 = a then (e.1, c) else e)).find? (fun e => e.1 == a)
      = (store.find? (fun e => e.1 == a)).map (fun e => (e.1, c)) := by
  induction store with
  | nil => rfl
  | cons e rest ih =>
      by_cases hea : e.1 = a
      · simp [List.find?_cons, hea, ih]
      · simp [List.find?_cons, hea, ih]

theorem find?_of_mem_keys {store : Store} {a : String} (h : a ∈ keysOf store) :
    ∃ e, store.find? (fun e => e.1 == a) = some e ∧ e.1 = a ∧ e ∈ store := by
  have hsome : (store.find? (fun e => e.1 == a)).isSome := by
    rw [List.find?_isSome]
    obtain ⟨e, he, hea⟩ := List.mem_map.mp h
    exact ⟨e, he, by simp [hea]⟩
  obtain ⟨e, he⟩ := Option.isSome_iff_exists.mp hsome
  refine ⟨e, he, ?_, List.mem_of_find?_eq_some he⟩
  have := List.find?_some he
  simpa using this

/-- Looking up `a` right after `add_dependency a b` yields the old list
with `b` appended. -/
theorem lookupDeps_add (store : Store) (a b : String) :
    lookupDeps (add_dependency store a b) a = some (depsOf store a ++ [b]) := by
  unfold add_dependency
  by_cases hk : a ∈ keysOf store
  · rw [if_pos hk]
    obtain ⟨e, he, _, _⟩ := find?_of_mem_keys hk
    unfold lookupDeps depsOf lookupDeps
    rw [find?_map_append store a b, he]
    simp
  · rw [if_neg hk]
    unfold lookupDeps depsOf lookupDeps
    rw [List.find?_append, find?_eq_none_of_not_mem_keys hk]
    simp

/-- Claim C7: after `add_dependency(A, B)`, `B` is among `A`'s direct
dependencies and `A` is among `B`'s reverse dependencies. -/
theorem add_dependency_round_trip : ∀ (store : Store) (a b : String),
    b ∈ get_dependencies (add_dependency store a b) a
  ∧ a ∈ get_reverse_dependencies (add_dependency store a b) b := by
  intro store a b
  constructor
  · simp [get_dependencies, depsOf, lookupDeps_add]
  · have hmem : ∃ e, e ∈ add_dependency store a b ∧ e.1 = a ∧ b ∈ e.2 := by
      unfold add_dependency
      by_cases hk : a ∈ keysOf store
      · obtain ⟨e0, _, hea, hmem0⟩ := find?_of_mem_keys hk
        refine ⟨(e0.1, e0.2 ++ [b]), ?_, hea, by simp⟩
        have := List.mem_map_of_mem
          (fun e => if e.1 = a then (e.1, e.2 ++ [b]) else e) hmem0
        simpa [hk, hea] using this
      · exact ⟨(a, [b]), by simp [hk], rfl, by simp⟩
    obtain ⟨e, he, hea, hb⟩ := hmem
    unfold get_reverse_dependencies
    refine List.mem_map.mpr ⟨e, List.mem_filter.mpr ⟨he, by simpa using hb⟩, hea⟩

/-- Claim C8: after `remove_dependency(A, B)` no occurrence of `B` is left
in `A`'s list, and `A`'s entry, when still present, is nonempty (an
emptied list removes the key). -/
theorem remove_dependency_correct : ∀ (store : Store) (a d : String),
    d ∉ get_dependencies (remove_dependency store a d) a
  ∧ ∀ l, lookupDeps (remove_dependency store a d) a = some l → d ∉ l ∧ l ≠ [] := by
  intro store a d
  cases hl : lookupDeps store a with
  | none =>
      have hrw : remove_dependency store a d = store := by
        unfold remove_dependency
        rw [hl]
      rw [hrw]
      refine ⟨?_, ?_⟩
      · simp [get_dependencies, depsOf, hl]
      · intro l hsome
        rw [hl] at hsome
        exact absurd hsome (by simp)
  | some l0 =>
      by_cases hemp : (l0.filter (fun d2 => d2 ≠ d)).isEmpty = true
      · have hnone : lookupDeps (store.filter (fun e => e.1 ≠ a)) a = none := by
          unfold lookupDeps
          rw [show (store.filter (fun e => e.1 ≠ a)).find? (fun e => e.1 == a) = none by
            rw [List.find?_eq_none]
            intro e he
            have := (List.mem_filter.mp he).2
            simpa using this]
          rfl
        have hrw : remove_dependency store a d = store.filter (fun e => e.1 ≠ a) := by
          unfold remove_dependency
          rw [hl]
          exact if_pos hemp
        rw [hrw]
        refine ⟨?_, ?_⟩
        · unfold get_dependencies depsOf
          rw [hnone]
          simp
        · intro l hsome
          rw [hnone] at hsome
          exact absurd hsome (by simp)
      · have hfind : ∃ e0, store.find? (fun e => e.1 == a) = some e0 := by
          unfold lookupDeps at hl
          cases hf : store.find? (fun e => e.1 == a) with
          | none => rw [hf] at hl; exact absurd hl (by simp)
          | some e0 => exact ⟨e0, rfl⟩
        obtain ⟨e0, he0⟩ := hfind
        have hrw : remove_dependency store a d
            = store.map (fun e => if e.1 = a then (e.1, l0.filter (fun d2 => d2 ≠ d)) else e) := by
          unfold remove_dependency
          rw [hl]
          exact if_neg hemp
        have hlook : lookupDeps
            (store.map (fun e => if e.1 = a then (e.1, l0.filter (fun d2 => d2 ≠ d)) else e)) a
            = some (l0.filter (fun d2 => d2 ≠ d)) := by
          unfold lookupDeps
          rw [find?_map_const store a (l0.filter (fun d2 => d2 ≠ d)), he0]
          rfl
        rw [hrw]
        refine ⟨?_, ?_⟩
        · simp only [get_dependencies, depsOf, hlook, Option.getD_some]
          intro hmem
          have := (List.mem_filter.mp hmem).2
          simp at this
        · intro l hsome
          rw [hlook] at hsome
          have hleq : l = l0.filter (fun d2 => d2 ≠ d) := by
            exact (Option.some_injective _ hsome).symm
          subst hleq
          refine ⟨?_, ?_⟩
          · intro hmem
            have := (List.mem_filter.mp hmem).2
            simp at this
          · intro hnil
            rw [hnil] at hemp
            simp at hemp

/-- Claim C4: in `build_tree_recursive` the circularity check precedes the
depth check, so a node already on the current path is returned as a leaf
flagged circular regardless of the depth bound; and `max_depth = 0`
returns the bare root, not flagged circular. -/
theorem tree_circular_before_depth :
    (∀ (store : Store) (n : Nat) (asset : String) (depth m : Nat) (vis : List String),
        asset ∈ vis →
        build_tree_recursive store n asset depth m vis
          = (.node asset depth [] true, vis))
  ∧ ∀ (store : Store) (asset : String),
      build_dependency_tree store asset 0 = .node asset 0 [] false := by
  constructor
  · intro store n asset depth m vis h
    cases n with
    | zero => simp [build_tree_recursive, h]
    | succ k => simp [build_tree_recursive, h]
  · intro store asset
    simp [build_dependency_tree, build_tree_recursive]

theorem tree_circular_before_depth_witness :
    build_tree_recursive cycStore 0 nA 5 3 [nA] = (.node nA 5 [] true, [nA]) :=
  tree_circular_before_depth.1 cycStore 0 nA 5 3 [nA] (by decide)

/-- Claim C9: `export_to_format` dispatches on the lowercased name: `json`,
`dot`, `csv` succeed, `yaml` succeeds with the placeholder string, and the
error case happens exactly outside these four names. -/
theorem export_format_dispatch : ∀ (store : Store) (format : String),
    (lowerStr format = "json" ∨ lowerStr format = "dot" ∨ lowerStr format = "csv" →
      ∃ s, export_to_format store format = .ok s)
  ∧ (lowerStr format = "yaml" →
      export_to_format store format = .ok ("YAML export not implemented yet"))
  ∧ ((∃ e, export_to_format store format = .error e) ↔
      lowerStr format ∉ (["json", "dot", "csv", "yaml"] : List String)) := by
  intro store format
  by_cases h1 : lowerStr format = "json"
  · refine ⟨fun _ => ⟨jsonOfStore store, ?_⟩, fun h => by rw [h] at h1; simp at h1, ?_⟩
    · simp [export_to_format, h1]
    · simp [export_to_format, h1]
  by_cases h2 : lowerStr format = "dot"
  · refine ⟨fun _ => ⟨export_to_dot store, ?_⟩, fun h => by rw [h] at h2; simp at h2, ?_⟩
    · simp [export_to_format, h2]
    · simp [export_to_format, h2]
  by_cases h3 : lowerStr format = "csv"
  · refine ⟨fun _ => ⟨export_to_csv store, ?_⟩, fun h => by rw [h] at h3; simp at h3, ?_⟩
    · simp [export_to_format, h3]
    · simp [export_to_format, h3]
  by_cases h4 : lowerStr format = "yaml"
  · refine ⟨fun h => ?_, fun _ => by simp [export_to_format, h4], ?_⟩
    · rcases h with h | h | h <;> (rw [h] at h4; simp at h4)
    · simp [export_to_format, h4]
  · refine ⟨fun h => absurd h (by simp [h1, h2, h3]), fun h => absurd h h4, ?_⟩
    constructor
    · intro _
      simp [h1, h2, h3, h4]
    · intro _
      exact ⟨"Unsupported export format: " ++ format, by
        simp [export_to_format, h1, h2, h3, h4]⟩

theorem export_format_dispatch_witness :
    export_to_format ([] : Store) "YAML" = .ok ("YAML export not implemented yet") :=
  (export_format_dispatch ([] : Store) "YAML").2.1 (by decide)

theorem remove_dependency_correct_witness :
    nB ∉ get_dependencies (remove_dependency [(nA, [nB, nC, nB])] nA nB) nA
  ∧ (nB ∉ [nC] ∧ [nC] ≠ ([] : List String)) :=
  ⟨(remove_dependency_correct [(nA, [nB, nC, nB])] nA nB).1,
   (remove_dependency_correct [(nA, [nB, nC, nB])] nA nB).2 [nC] (by decide)⟩

/- ===== transitive closure (claim C2) ===== -/

theorem hinsert_not_mem {a : String} {s : List String} (h : a ∉ s) :
    hinsert a s = a :: s := by
  unfold hinsert
  rw [if_neg h]

theorem goCollect_mono (f : String → List String × List String → List String × List String)
    (hf : ∀ d st, st.2 ⊆ (f d st).2) :
    ∀ (l : List String) (st : List String × List String), st.2 ⊆ (goCollect f l st).2 := by
  intro l
  induction l with
  | nil => intro st x hx; simpa [goCollect] using hx
  | cons d rest ih =>
      intro st x hx
      simp only [goCollect]
      apply ih
      apply hf
      by_cases hd : d ∈ st.2
      · simpa [hd] using hx
      · simp only [if_neg hd]
        exact List.mem_append_left _ hx

theorem collectRec_mono (store : Store) :
    ∀ (n : Nat) (a : String) (st : List String × List String),
      st.2 ⊆ (collectRec store n a st).2 := by
  intro n
  induction n with
  | zero => intro a st x hx; simpa [collectRec] using hx
  | succ k ih =>
      intro a st x hx
      simp only [collectRec]
      by_cases hv : a ∈ st.1
      · simpa [hv] using hx
      · rw [if_neg hv]
        exact goCollect_mono _ (fun d st2 => ih d st2) _ _ hx

theorem goCollect_nodup (f : String → List String × List String → List String × List String)
    (hf : ∀ d st, st.2.Nodup → (f d st).2.Nodup) :
    ∀ (l : List String) (st : List String × List String),
      st.2.Nodup → (goCollect f l st).2.Nodup := by
  intro l
  induction l with
  | nil => intro st h; simpa [goCollect] using h
  | cons d rest ih =>
      intro st h
      simp only [goCollect]
      apply ih
      apply hf
      by_cases hd : d ∈ st.2
      · simpa [hd] using h
      · simp only [if_neg hd]
        simp [List.nodup_append, h, hd]

theorem collectRec_nodup (store : Store) :
    ∀ (n : Nat) (a : String) (st : List String × List String),
      st.2.Nodup → (collectRec store n a st).2.Nodup := by
  intro n
  induction n with
  | zero => intro a st h; simpa [collectRec] using h
  | succ k ih =>
      intro a st h
      simp only [collectRec]
      by_cases hv : a ∈ st.1
      · simpa [hv] using h
      · rw [if_neg hv]
        exact goCollect_nodup _ (fun d st2 => ih d st2) _ _ h

theorem goCollect_cover (f : String → List String × List String → List String × List String)
    (hf : ∀ d st, st.2 ⊆ (f d st).2) :
    ∀ (l : List String) (st : List String × List String) (d : String),
      d ∈ l → d ∈ (goCollect f l st).2 := by
  intro l
  induction l with
  | nil => intro st d hd; exact absurd hd (by simp)
  | cons d0 rest ih =>
      intro st d hd
      simp only [goCollect]
      rcases List.mem_cons.mp hd with h | h
      · subst h
        apply goCollect_mono f hf
        apply hf
        by_cases hd0 : d ∈ st.2
        · simp [hd0]
        · simp [if_neg hd0]
      · exact ih _ d h

/-- Claim C2: `get_all_dependencies` always returns `Ok`; the list is
duplicate-free; every direct dependency of the root (dangling or not) is
in it; and expanding an asset with no outgoing edges (in particular a
dangling dependency) only marks it visited and adds nothing to the
result. -/
theorem get_all_deps_total_nodup : ∀ (store : Store) (asset : String),
    (∃ l, get_all_dependencies store asset = Except.ok l ∧ l.Nodup ∧
        ∀ d, d ∈ depsOf store asset → d ∈ l)
  ∧ ∀ (n : Nat) (d : String) (vis res : List String), depsOf store d = [] →
      collectRec store (n + 1) d (vis, res) = (hinsert d vis, res) := by
  intro store asset
  constructor
  · refine ⟨(collectRec store (fuelBound store) asset ([], [])).2, rfl, ?_, ?_⟩
    · exact collectRec_nodup store _ asset ([], []) (by simp)
    · intro d hd
      have hfb : fuelBound store
          = (store.length + (store.map (fun e => e.2.length)).sum + 1) + 1 := rfl
      rw [hfb]
      show d ∈ (goCollect
          (collectRec store (store.length + (store.map (fun e => e.2.length)).sum + 1))
          (depsOf store asset) (hinsert asset [], [])).2
      exact goCollect_cover _ (fun d2 st2 => collectRec_mono store _ d2 st2) _ _ d hd
  · intro n d vis res hdeps
    simp only [collectRec]
    by_cases hv : d ∈ vis
    · have : hinsert d vis = vis := by unfold hinsert; rw [if_pos hv]
      rw [this]
      simp [hv]
    · rw [if_neg (by simpa using hv), hdeps]
      rfl

theorem get_all_deps_total_nodup_witness :
    (∃ l, get_all_dependencies [(nA, [nX])] nA = Except.ok l ∧ l.Nodup ∧
        ∀ d, d ∈ depsOf [(nA, [nX])] nA → d ∈ l)
  ∧ collectRec [(nA, [nX])] (0 + 1) nX ([], []) = (hinsert nX [], []) :=
  ⟨(get_all_deps_total_nodup [(nA, [nX])] nA).1,
   (get_all_deps_total_nodup [(nA, [nX])] nA).2 0 nX [] [] (by decide)⟩

/- ===== depth computation (claim C5) ===== -/

theorem goDepth_resto (f : String → List String → Nat × List String)
    (hf : ∀ d v, (f d v).2 = v) :
    ∀ (l : List String) (v : List String), (goDepth f l v).2 = v := by
  intro l
  induction l with
  | nil => intro v; rfl
  | cons d rest ih =>
      intro v
      simp only [goDepth]
      rw [hf d v, ih v]

theorem calcDepthRec_resto (store : Store) :
    ∀ (n : Nat) (a : String) (vis : List String), (calcDepthRec store n a vis).2 = vis := by
  intro n
  induction n with
  | zero => intro a vis; rfl
  | succ k ih =>
      intro a vis
      simp only [calcDepthRec]
      by_cases hv : a ∈ vis
      · rw [if_pos hv]
      · rw [if_neg hv]
        simp only [goDepth_resto _ (fun d v => ih d v)]
        rw [hinsert_not_mem hv, List.erase_cons_head]

theorem goDepth_eval (f : String → List String → Nat × List String)
    (hf : ∀ d v, (f d v).2 = v) :
    ∀ (l : List String) (v : List String),
      goDepth f l v = (l.foldr (fun d acc => max (f d v).1 acc) 0, v) := by
  intro l
  induction l with
  | nil => intro v; rfl
  | cons d rest ih =>
      intro v
      simp only [goDepth, List.foldr_cons]
      rw [hf d v, ih v]

/-- Claim C5: `calculate_max_depth` gives a revisited node 0, a node with
no outgoing edges 1, and an internal node 1 plus the maximum over its
children's recursive depths (computed with the node added to the
path-local visited set, which every call restores on exit). -/
theorem calculate_depth_spec : ∀ (store : Store) (n : Nat) (a : String) (vis : List String),
    (a ∈ vis → calcDepthRec store (n + 1) a vis = (0, vis))
  ∧ (a ∉ vis → depsOf store a = [] → calcDepthRec store (n + 1) a vis = (1, vis))
  ∧ (a ∉ vis → calcDepthRec store (n + 1) a vis =
      ((depsOf store a).foldr
        (fun d acc => max (calcDepthRec store n d (hinsert a vis)).1 acc) 0 + 1, vis))
  ∧ (depsOf store a = [] → calculate_max_depth store a = 1) := by
  intro store n a vis
  have main : ∀ (m : Nat) (v : List String), a ∉ v → calcDepthRec store (m + 1) a v =
      ((depsOf store a).foldr
        (fun d acc => max (calcDepthRec store m d (hinsert a v)).1 acc) 0 + 1, v) := by
    intro m v hv
    simp only [calcDepthRec]
    rw [if_neg hv, goDepth_eval _ (fun d v2 => calcDepthRec_resto store m d v2)]
    simp only []
    rw [hinsert_not_mem hv, List.erase_cons_head]
  refine ⟨?_, ?_, main n vis, ?_⟩
  · intro h
    simp only [calcDepthRec]
    rw [if_pos h]
  · intro hv hdeps
    rw [main n vis hv, hdeps]
    rfl
  · intro hdeps
    unfold calculate_max_depth
    have hfb : fuelBound store
        = (store.length + (store.map (fun e => e.2.length)).sum + 1) + 1 := rfl
    rw [hfb, main _ [] (by simp), hdeps]
    rfl

theorem calculate_depth_spec_witness :
    calcDepthRec [(nA, [nB])] (0 + 1) nA [nA] = (0, [nA])
  ∧ calculate_max_depth [(nA, [nB])] nB = 1 :=
  ⟨(calculate_depth_spec [(nA, [nB])] 0 nA [nA]).1 (by decide),
   (calculate_depth_spec [(nA, [nB])] 0 nB []).2.2.2 (by decide)⟩

/- ===== optimizer (claim C6) ===== -/


theorem charsLe_total : ∀ as bs : List Char, charsLe as bs = true ∨ charsLe bs as = true := by
  intro as
  induction as with
  | nil => intro bs; left; rfl
  | cons a as2 ih =>
      intro bs
      cases bs with
      | nil => right; rfl
      | cons b bs2 =>
          rcases lt_trichotomy a b with h | h | h
          · left; simp [charsLe, h]
          · subst h
            rcases ih bs2 with h2 | h2
            · left; simp [charsLe, lt_self_iff_false, h2]
            · right; simp [charsLe, lt_self_iff_false, h2]
          · right; simp [charsLe, h]

theorem charsLe_trans : ∀ as bs cs : List Char,
    charsLe as bs = true → charsLe bs cs = true → charsLe as cs = true := by
  intro as
  induction as with
  | nil => intro bs cs _ _; rfl
  | cons a as2 ih =>
      intro bs cs h1 h2
      cases bs with
      | nil => simp [charsLe] at h1
      | cons b bs2 =>
          cases cs with
          | nil => simp [charsLe] at h2
          | cons c cs2 =>
              rcases lt_trichotomy a b with hab | hab | hab
              · rcases lt_trichotomy b c with hbc | hbc | hbc
                · simp [charsLe, lt_trans hab hbc]
                · subst hbc; simp [charsLe, hab]
                · simp [charsLe, hbc, lt_asymm hbc] at h2
              · subst hab
                rcases lt_trichotomy a c with hac | hac | hac
                · simp [charsLe, hac]
                · subst hac
                  simp [charsLe, lt_self_iff_false] at h1 h2 ⊢
                  exact ih bs2 cs2 h1 h2
                · simp [charsLe, lt_asymm hac, hac] at h2
              · simp [charsLe, lt_asymm hab, hab] at h1

theorem charsLe_antisymm : ∀ as bs : List Char,
    charsLe as bs = true → charsLe bs as = true → as = bs := by
  intro as
  induction as with
  | nil =>
      intro bs h1 h2
      cases bs with
      | nil => rfl
      | cons b bs2 => simp [charsLe] at h2
  | cons a as2 ih =>
      intro bs h1 h2
      cases bs with
      | nil => simp [charsLe] at h1
      | cons b bs2 =>
          rcases lt_trichotomy a b with hab | hab | hab
          · simp [charsLe, hab, lt_asymm hab] at h2
          · subst hab
            simp [charsLe, lt_self_iff_false] at h1 h2
            rw [ih bs2 h1 h2]
          · simp [charsLe, hab, lt_asymm hab] at h1

theorem strLeb_antisymm {a b : String} (h1 : strLeb a b = true)
    (h2 : strLeb b a = true) : a = b := by
  have := charsLe_antisymm a.data b.data h1 h2
  cases a
  cases b
  exact congrArg String.mk (by simpa using this)

instance : IsTotal String (fun a b => strLeb a b = true) :=
  ⟨fun a b => charsLe_total a.data b.data⟩

instance : IsTrans String (fun a b => strLeb a b = true) :=
  ⟨fun a b c => charsLe_trans a.data b.data c.data⟩

theorem dedupConsec_sublist : ∀ l : List String, List.Sublist (dedupConsec l) l := by
  intro l
  induction l with
  | nil => simp [dedupConsec]
  | cons a tail ih =>
      cases tail with
      | nil => simp [dedupConsec]
      | cons b rest =>
          by_cases hab : a = b
          · simp only [dedupConsec, if_pos hab]
            exact List.Sublist.cons a ih
          · simp only [dedupConsec, if_neg hab]
            exact List.Sublist.cons₂ a ih

theorem dedupConsec_nodup : ∀ l : List String,
    l.Sorted (fun a b => strLeb a b = true) → (dedupConsec l).Nodup := by
  intro l
  induction l with
  | nil => intro _; simp [dedupConsec]
  | cons a tail ih =>
      intro hs
      cases tail with
      | nil => simp [dedupConsec]
      | cons b rest =>
          obtain ⟨hall, hs2⟩ := List.sorted_cons.mp hs
          by_cases hab : a = b
          · simp only [dedupConsec, if_pos hab]
            exact ih hs2
          · simp only [dedupConsec, if_neg hab]
            rw [List.nodup_cons]
            refine ⟨?_, ih hs2⟩
            intro hmem
            have hmem2 : a ∈ b :: rest := (dedupConsec_sublist (b :: rest)).mem hmem
            rcases List.mem_cons.mp hmem2 with h | h
            · exact hab h
            · obtain ⟨hall2, _⟩ := List.sorted_cons.mp hs2
              have h1 : strLeb a b = true := hall b (by simp)
              have h2 : strLeb b a = true := hall2 a h
              exact hab (strLeb_antisymm h1 h2)

theorem dedupConsec_eq_self : ∀ l : List String, l.Nodup → dedupConsec l = l := by
  intro l
  induction l with
  | nil => intro _; rfl
  | cons a tail ih =>
      intro hn
      cases tail with
      | nil => rfl
      | cons b rest =>
          obtain ⟨hnot, hn2⟩ := List.nodup_cons.mp hn
          have hab : a ≠ b := fun h => hnot (by simp [h])
          simp only [dedupConsec, if_neg hab]
          rw [ih hn2]

theorem optimizeEntry_sorted (l : List String) :
    (optimizeEntry l).Sorted (fun a b => strLeb a b = true) :=
  List.Pairwise.sublist (dedupConsec_sublist _)
    (List.sorted_insertionSort (fun a b => strLeb a b = true) l)

theorem optimizeEntry_nodup (l : List String) : (optimizeEntry l).Nodup :=
  dedupConsec_nodup _ (List.sorted_insertionSort (fun a b => strLeb a b = true) l)

theorem optimizeEntry_fixed (l : List String)
    (hs : l.Sorted (fun a b => strLeb a b = true)) (hn : l.Nodup) :
    optimizeEntry l = l := by
  unfold optimizeEntry
  rw [List.Sorted.insertionSort_eq hs, dedupConsec_eq_self l hn]

theorem optimize_of_normalized (s : Store)
    (h : ∀ e, e ∈ s →
      e.2.Sorted (fun a b => strLeb a b = true) ∧ e.2.Nodup ∧ e.2 ≠ []) :
    optimize s = (s, 0) := by
  unfold optimize
  have hmap : s.map (fun e => (e.1, optimizeEntry e.2)) = s := by
    calc s.map (fun e => (e.1, optimizeEntry e.2))
        = s.map id := List.map_congr_left (fun e he => by
            obtain ⟨hs2, hn, _⟩ := h e he
            simp [optimizeEntry_fixed e.2 hs2 hn])
      _ = s := List.map_id s
  have hsum : (s.map (fun e => e.2.length - (optimizeEntry e.2).length)).sum = 0 := by
    rw [List.map_congr_left (g := fun _ => 0) (fun e he => by
      obtain ⟨hs2, hn, _⟩ := h e he
      simp [optimizeEntry_fixed e.2 hs2 hn])]
    simp
  have hfilter : s.filter (fun e => ¬ e.2.isEmpty) = s :=
    List.filter_eq_self.mpr (fun e he => by
      obtain ⟨_, _, hne⟩ := h e he
      simpa [List.isEmpty_iff] using hne)
  rw [hmap, hsum, hfilter]

/-- Claim C6: after one `optimize` every surviving list is sorted (in the
string order `Vec::sort` uses), duplicate-free and nonempty, and a second
`optimize` changes nothing and reports zero removals. -/
theorem optimize_idempotent : ∀ store : Store,
    (∀ e, e ∈ (optimize store).1 →
        e.2.Sorted (fun a b => strLeb a b = true) ∧ e.2.Nodup ∧ e.2 ≠ [])
  ∧ optimize (optimize store).1 = ((optimize store).1, 0) := by
  intro store
  have hmem : ∀ e, e ∈ (optimize store).1 →
      e.2.Sorted (fun a b => strLeb a b = true) ∧ e.2.Nodup ∧ e.2 ≠ [] := by
    intro e he
    unfold optimize at he
    obtain ⟨hmem2, hne⟩ := List.mem_filter.mp he
    obtain ⟨e0, _, heq⟩ := List.mem_map.mp hmem2
    refine ⟨?_, ?_, ?_⟩
    · rw [← heq]
      exact optimizeEntry_sorted e0.2
    · rw [← heq]
      exact optimizeEntry_nodup e0.2
    · intro hnil
      rw [hnil] at hne
      simp at hne
  exact ⟨hmem, optimize_of_normalized _ hmem⟩

theorem optimize_idempotent_witness :
    (nA, [nB]).2.Sorted (fun a b => strLeb a b = true) ∧ (nA, [nB]).2.Nodup
      ∧ (nA, [nB]).2 ≠ [] :=
  (optimize_idempotent [(nA, [nB, nB])]).1 (nA, [nB]) (by decide)

/- ===== diamond tree (claim C3) ===== -/

theorem buildD : ∀ (n M : Nat) (v : List String), nD ∉ v →
    build_tree_recursive diamondStore n nD 2 M v = (.node nD 2 [] false, v) := by
  intro n M v hv
  cases n with
  | zero => simp [build_tree_recursive, hv]
  | succ k =>
      by_cases hc : nD ∈ v ∨ M ≤ 2
      · simp only [build_tree_recursive]
        rw [if_pos hc]
        simp [hv]
      · simp only [build_tree_recursive]
        rw [if_neg hc]
        rw [show depsOf diamondStore nD = [] from rfl]
        simp only [goBuild]
        rw [hinsert_not_mem hv, List.erase_cons_head]

theorem buildB : ∀ (n M : Nat) (v : List String), nB ∉ v → nD ∉ hinsert nB v →
    ¬ M ≤ 1 →
    build_tree_recursive diamondStore (n + 1) nB 1 M v
      = (.node nB 1 [.node nD 2 [] false] false, v) := by
  intro n M v hB hD hM
  simp only [build_tree_recursive]
  rw [if_neg (by simp [hB, hM])]
  rw [show depsOf diamondStore nB = [nD] from rfl]
  simp only [goBuild]
  rw [show (1 : Nat) + 1 = 2 from rfl, buildD n M (hinsert nB v) hD]
  simp only [goBuild]
  rw [hinsert_not_mem hB, List.erase_cons_head]

theorem buildC : ∀ (n M : Nat) (v : List String), nC ∉ v → nD ∉ hinsert nC v →
    ¬ M ≤ 1 →
    build_tree_recursive diamondStore (n + 1) nC 1 M v
      = (.node nC 1 [.node nD 2 [] false] false, v) := by
  intro n M v hC hD hM
  simp only [build_tree_recursive]
  rw [if_neg (by simp [hC, hM])]
  rw [show depsOf diamondStore nC = [nD] from rfl]
  simp only [goBuild]
  rw [show (1 : Nat) + 1 = 2 from rfl, buildD n M (hinsert nC v) hD]
  simp only [goBuild]
  rw [hinsert_not_mem hC, List.erase_cons_head]

/-- Claim C3: on the diamond store `{A:[B,C], B:[D], C:[D]}` the tree from
`A` with any `max_depth >= 2` repeats `D` once under `B` and once under
`C`, with no circular flag anywhere: the visited set is path-local. -/
theorem tree_diamond : ∀ m, 2 ≤ m →
    build_dependency_tree diamondStore nA m
      = .node nA 0
          [.node nB 1 [.node nD 2 [] false] false,
           .node nC 1 [.node nD 2 [] false] false] false := by
  intro m hm
  obtain ⟨k, rfl⟩ : ∃ k, m = k + 2 := ⟨m - 2, by omega⟩
  unfold build_dependency_tree
  show (build_tree_recursive diamondStore (k + 1 + 1) nA 0 (k + 2) []).1 = _
  rw [build_tree_recursive]
  rw [if_neg (by simp)]
  rw [show depsOf diamondStore nA = [nB, nC] from rfl]
  simp only [goBuild]
  rw [show (0 : Nat) + 1 = 1 from rfl]
  rw [show hinsert nA [] = [nA] from rfl]
  rw [buildB k (k + 2) [nA] (by decide) (by decide) (by omega)]
  rw [buildC k (k + 2) [nA] (by decide) (by decide) (by omega)]

theorem tree_diamond_witness :
    build_dependency_tree diamondStore nA 2
      = .node nA 0
          [.node nB 1 [.node nD 2 [] false] false,
           .node nC 1 [.node nD 2 [] false] false] false :=
  tree_diamond 2 (by decide)

/- ===== cycle detection invariant (claims C1, C10) ===== -/

theorem mem_hinsert {x a : String} {s : List String} :
    x ∈ hinsert a s ↔ x = a ∨ x ∈ s := by
  unfold hinsert
  by_cases h : a ∈ s
  · rw [if_pos h]
    constructor
    · intro hx; exact Or.inr hx
    · intro hx
      rcases hx with hx | hx
      · rw [hx]; exact h
      · exact hx
  · rw [if_neg h]
    exact List.mem_cons

theorem findIdx?_of_mem : ∀ (l : List String) (a : String), a ∈ l →
    ∃ i, l.findIdx? (fun x => x == a) = some i ∧ (l.drop i).head? = some a := by
  intro l a
  induction l with
  | nil => intro h; simp at h
  | cons x xs ih =>
      intro h
      by_cases hx : (x == a) = true
      · refine ⟨0, ?_, ?_⟩
        · rw [List.findIdx?_cons, if_pos hx]
        · have : x = a := by simpa using hx
          simp [this]
      · have ha : a ∈ xs := by
          rcases List.mem_cons.mp h with h1 | h1
          · exact absurd (by simp [h1]) hx
          · exact h1
        obtain ⟨i, hi, hhead⟩ := ih ha
        refine ⟨i + 1, ?_, ?_⟩
        · rw [List.findIdx?_cons, if_neg hx, List.findIdx?_succ, hi]
          rfl
        · simpa using hhead

theorem getLast?_of_suffix {l l2 : List String} (h : List.IsSuffix l2 l)
    (hne : l2 ≠ []) : l.getLast? = l2.getLast? := by
  obtain ⟨t, rfl⟩ := h
  rw [List.getLast?_append]
  cases hl : l2.getLast? with
  | none => exact absurd (List.getLast?_eq_none_iff.mp hl) hne
  | some y => rfl

/-- When the back edge `asset -> d` closes into the current path, the
emitted cycle is the suffix of the path starting at `d`, and it is a good
cycle; nothing else in the state changes. -/
theorem emitCycle_spec (store : Store) (d : String) (st : DfsState) (asset : String)
    (hmem : d ∈ st.path)
    (hchain : st.path.Chain' (hasEdge store))
    (hlast : st.path.getLast? = some asset)
    (hedge : hasEdge store asset d) :
    ∃ c, emitCycle d st = { st with cycles := st.cycles ++ [c] }
      ∧ GoodCycle store c := by
  obtain ⟨i, hi, hhead⟩ := findIdx?_of_mem st.path d hmem
  have hne : st.path.drop i ≠ [] := by
    intro h
    rw [h] at hhead
    simp at hhead
  refine ⟨st.path.drop i, ?_, hne, ?_, ?_⟩
  · unfold emitCycle
    rw [hi]
  · exact hchain.suffix (List.drop_suffix i st.path)
  · have hl : (st.path.drop i).getLast? = some asset := by
      rw [← getLast?_of_suffix (List.drop_suffix i st.path) hne]
      exact hlast
    rw [List.getLastD_eq_getLast?, List.headD_eq_head?_getD, hl, hhead]
    exact hedge

theorem goDetect_inv (store : Store) (f : String → DfsState → DfsState)
    (hf : ∀ (d : String) (st : DfsState), DetectInv store st → d ∉ st.stack →
        List.Chain' (hasEdge store) (st.path ++ [d]) →
        DetectInv store (f d st) ∧ (f d st).path = st.path ∧ (f d st).stack = st.stack
          ∧ ∀ x, x ∈ st.visited → x ∈ (f d st).visited) :
    ∀ (l : List String) (st : DfsState) (asset : String),
      DetectInv store st → st.path.getLast? = some asset →
      (∀ d, d ∈ l → hasEdge store asset d) →
      DetectInv store (goDetect f l st) ∧ (goDetect f l st).path = st.path
        ∧ (goDetect f l st).stack = st.stack
        ∧ ∀ x, x ∈ st.visited → x ∈ (goDetect f l st).visited := by
  intro l
  induction l with
  | nil =>
      intro st asset hinv hlast hedges
      exact ⟨hinv, rfl, rfl, fun x hx => hx⟩
  | cons d rest ih =>
      intro st asset hinv hlast hedges
      obtain ⟨hchain, hiff, hsv, hcyc, hpan⟩ := hinv
      by_cases hdv : d ∈ st.visited
      · by_cases hds : d ∈ st.stack
        · -- back edge to a gray node: emit a cycle, keep walking
          have hdp : d ∈ st.path := (hiff d).mp hds
          obtain ⟨c, hceq, hcgood⟩ :=
            emitCycle_spec store d st asset hdp hchain hlast (hedges d (by simp))
          have hinv1 : DetectInv store (emitCycle d st) := by
            rw [hceq]
            refine ⟨hchain, hiff, hsv, ?_, hpan⟩
            intro c2 hc2
            rcases List.mem_append.mp hc2 with h | h
            · exact hcyc c2 h
            · rw [List.mem_singleton.mp h]
              exact hcgood
          have hlast1 : (emitCycle d st).path.getLast? = some asset := by
            rw [hceq]
            exact hlast
          obtain ⟨hinv2, hpath2, hstack2, hvis2⟩ :=
            ih (emitCycle d st) asset hinv1 hlast1 (fun d2 h2 => hedges d2 (by simp [h2]))
          have hstep : goDetect f (d :: rest) st = goDetect f rest (emitCycle d st) := by
            simp only [goDetect, if_pos hdv, if_pos hds]
          rw [hstep]
          refine ⟨hinv2, ?_, ?_, ?_⟩
          · rw [hpath2, hceq]
          · rw [hstack2, hceq]
          · intro x hx
            apply hvis2
            rw [hceq]
            exact hx
        · -- already black: nothing happens for this edge
          have hstep : goDetect f (d :: rest) st = goDetect f rest st := by
            simp only [goDetect, if_pos hdv, if_neg hds]
          rw [hstep]
          exact ih st asset ⟨hchain, hiff, hsv, hcyc, hpan⟩ hlast
            (fun d2 h2 => hedges d2 (by simp [h2]))
      · -- white node: recurse into it
        have hnds : d ∉ st.stack := fun h => hdv (hsv d h)
        have hch2 : List.Chain' (hasEdge store) (st.path ++ [d]) := by
          rw [List.chain'_append]
          refine ⟨hchain, List.chain'_singleton d, ?_⟩
          intro x hx y hy
          rw [hlast] at hx
          have hxa : x = asset := by simpa using hx.symm
          have hyd : y = d := by simpa using hy.symm
          rw [hxa, hyd]
          exact hedges d (by simp)
        obtain ⟨hinv2, hpath2, hstack2, hvis2⟩ :=
          hf d st ⟨hchain, hiff, hsv, hcyc, hpan⟩ hnds hch2
        have hlast2 : (f d st).path.getLast? = some asset := by
          rw [hpath2]
          exact hlast
        obtain ⟨hinv3, hpath3, hstack3, hvis3⟩ :=
          ih (f d st) asset hinv2 hlast2 (fun d2 h2 => hedges d2 (by simp [h2]))
        have hstep : goDetect f (d :: rest) st = goDetect f rest (f d st) := by
          simp only [goDetect, if_neg hdv]
        rw [hstep]
        refine ⟨hinv3, ?_, ?_, ?_⟩
        · rw [hpath3, hpath2]
        · rw [hstack3, hstack2]
        · intro x hx
          exact hvis3 x (hvis2 x hx)

theorem detectDfs_inv (store : Store) :
    ∀ (n : Nat) (asset : String) (st : DfsState),
      DetectInv store st → asset ∉ st.stack →
      List.Chain' (hasEdge store) (st.path ++ [asset]) →
      DetectInv store (detectDfs store n asset st)
        ∧ (detectDfs store n asset st).path = st.path
        ∧ (detectDfs store n asset st).stack = st.stack
        ∧ ∀ x, x ∈ st.visited → x ∈ (detectDfs store n asset st).visited := by
  intro n
  induction n with
  | zero =>
      intro asset st hinv hns hch
      exact ⟨hinv, rfl, rfl, fun x hx => hx⟩
  | succ k ih =>
      intro asset st hinv hns hch
      obtain ⟨hchain, hiff, hsv, hcyc, hpan⟩ := hinv
      have hins_s : hinsert asset st.stack = asset :: st.stack := hinsert_not_mem hns
      have hdef : detectDfs store (k + 1) asset st
          = { goDetect (detectDfs store k) (depsOf store asset)
                { st with visited := hinsert asset st.visited,
                          stack := hinsert asset st.stack,
                          path := st.path ++ [asset] } with
              path := (goDetect (detectDfs store k) (depsOf store asset)
                { st with visited := hinsert asset st.visited,
                          stack := hinsert asset st.stack,
                          path := st.path ++ [asset] }).path.dropLast,
              stack := (goDetect (detectDfs store k) (depsOf store asset)
                { st with visited := hinsert asset st.visited,
                          stack := hinsert asset st.stack,
                          path := st.path ++ [asset] }).stack.erase asset } := rfl
      have hinv1 : DetectInv store
          { st with visited := hinsert asset st.visited,
                    stack := hinsert asset st.stack,
                    path := st.path ++ [asset] } := by
        refine ⟨hch, ?_, ?_, hcyc, hpan⟩
        · intro x
          show x ∈ hinsert asset st.stack ↔ x ∈ st.path ++ [asset]
          rw [hins_s]
          rw [List.mem_cons, List.mem_append, List.mem_singleton, hiff x]
          tauto
        · intro x hx
          show x ∈ hinsert asset st.visited
          rw [hins_s] at hx
          rcases List.mem_cons.mp hx with h | h
          · exact mem_hinsert.mpr (Or.inl h)
          · exact mem_hinsert.mpr (Or.inr (hsv x h))
      have hlast1 : (st.path ++ [asset]).getLast? = some asset := List.getLast?_concat _
      obtain ⟨hinv2, hpath2, hstack2, hvis2⟩ :=
        goDetect_inv store (detectDfs store k)
          (fun d st2 hi hn hc => ih d st2 hi hn hc)
          (depsOf store asset)
          { st with visited := hinsert asset st.visited,
                    stack := hinsert asset st.stack,
                    path := st.path ++ [asset] }
          asset hinv1 hlast1 (fun d2 h2 => h2)
      obtain ⟨hchain2, hiff2, hsv2, hcyc2, hpan2⟩ := hinv2
      rw [hdef]
      have hpathfin : (goDetect (detectDfs store k) (depsOf store asset)
          { st with visited := hinsert asset st.visited,
                    stack := hinsert asset st.stack,
                    path := st.path ++ [asset] }).path.dropLast = st.path := by
        rw [hpath2]
        exact List.dropLast_concat
      have hstackfin : (goDetect (detectDfs store k) (depsOf store asset)
          { st with visited := hinsert asset st.visited,
                    stack := hinsert asset st.stack,
                    path := st.path ++ [asset] }).stack.erase asset = st.stack := by
        rw [hstack2]
        show (hinsert asset st.stack).erase asset = st.stack
        rw [hins_s]
        exact List.erase_cons_head asset st.stack
      refine ⟨⟨?_, ?_, ?_, ?_, ?_⟩, ?_, ?_, ?_⟩
      · show List.Chain' (hasEdge store) _
        rw [hpathfin]
        exact hchain
      · intro x
        show x ∈ _ ↔ x ∈ _
        rw [hpathfin, hstackfin]
        exact hiff x
      · intro x hx
        rw [hstackfin] at hx
        exact hvis2 x (mem_hinsert.mpr (Or.inr (hsv x hx)))
      · exact hcyc2
      · exact hpan2
      · exact hpathfin
      · exact hstackfin
      · intro x hx
        exact hvis2 x (mem_hinsert.mpr (Or.inr hx))

theorem detectState_inv (store : Store) :
    DetectInv store (detectState store)
      ∧ (detectState store).path = [] ∧ (detectState store).stack = [] := by
  have main : ∀ (keys : List String) (st : DfsState),
      DetectInv store st → st.path = [] → st.stack = [] →
      DetectInv store (keys.foldl
        (fun st a => if a ∈ st.visited then st
          else detectDfs store (fuelBound store) a { st with path := [] }) st)
      ∧ (keys.foldl
          (fun st a => if a ∈ st.visited then st
            else detectDfs store (fuelBound store) a { st with path := [] }) st).path = []
      ∧ (keys.foldl
          (fun st a => if a ∈ st.visited then st
            else detectDfs store (fuelBound store) a { st with path := [] }) st).stack = [] := by
    intro keys
    induction keys with
    | nil =>
        intro st hinv hp hs
        exact ⟨hinv, hp, hs⟩
    | cons a keys2 ih =>
        intro st hinv hp hs
        rw [List.foldl_cons]
        by_cases hv : a ∈ st.visited
        · rw [if_pos hv]
          exact ih st hinv hp hs
        · rw [if_neg hv]
          obtain ⟨hchain, hiff, hsv, hcyc, hpan⟩ := hinv
          have hinv0 : DetectInv store { st with path := [] } := by
            refine ⟨List.chain'_nil, ?_, ?_, hcyc, hpan⟩
            · intro x
              show x ∈ st.stack ↔ x ∈ ([] : List String)
              rw [hs]
            · intro x hx
              exact hsv x hx
          have hns : a ∉ ({ st with path := [] } : DfsState).stack := by
            show a ∉ st.stack
            rw [hs]
            simp
          have hch : List.Chain' (hasEdge store)
              (({ st with path := [] } : DfsState).path ++ [a]) := by
            show List.Chain' (hasEdge store) ([] ++ [a])
            exact List.chain'_singleton a
          obtain ⟨hinv2, hpath2, hstack2, _⟩ :=
            detectDfs_inv store (fuelBound store) a { st with path := [] } hinv0 hns hch
          refine ih _ hinv2 ?_ ?_
          · rw [hpath2]
          · rw [hstack2]
            exact hs
  have hinit : DetectInv store (⟨[], [], [], [], false⟩ : DfsState) :=
    ⟨List.chain'_nil, fun x => Iff.rfl, fun x hx => hx,
     fun c hc => absurd hc (by simp), rfl⟩
  exact main (keysOf store) ⟨[], [], [], [], false⟩ hinit rfl rfl

/-- Claim C1: on the store `{A:[B], B:[C], C:[A]}` the cycle `[A, B, C]`
is reported, its elements are exactly `{A, B, C}` and consecutive (and
wrap-around) pairs are edges; and in general every cycle the detector
reports is a nonempty chain of edges closed by an edge from its last
element (the node where the back edge was found) to its first (the gray
node the back edge points to) — the shape of a path suffix from the gray
node through the current node. -/
theorem detect_cycles_spec :
    [nA, nB, nC] ∈ detect_circular_dependencies cycStore
  ∧ GoodCycle cycStore [nA, nB, nC]
  ∧ ∀ (store : Store) (c : List String),
      c ∈ detect_circular_dependencies store → GoodCycle store c := by
  refine ⟨by decide, by decide, ?_⟩
  intro store c hc
  exact (detectState_inv store).1.2.2.2.1 c hc

theorem detect_cycles_spec_witness : GoodCycle cycStore [nA, nB, nC] :=
  detect_cycles_spec.2.2 cycStore [nA, nB, nC] (by decide)

/-- Claim C10: whenever the DFS meets an edge into the recursion stack,
the target is on the current path (the invariant `DetectInv` maintains
that stack and path have the same members), so the modelled
`position(..).unwrap()` never takes its failing branch: the `panicked`
flag is still clear after a full `detect_circular_dependencies` run on
any store. -/
theorem detect_position_no_panic : ∀ store : Store,
    (detectState store).panicked = false := by
  intro store
  exact (detectState_inv store).1.2.2.2.2
